import Mathlib

/-!
Verification of the Prometheus text-exposition encoder (`src/lib.rs` of the
metrics-encoder crate) against its natural-language specification.

Modelling conventions of the shallow embedding:

* Rust strings become `Str := List Char`.  The validator in the source walks
  UTF-8 bytes, but its per-byte ASCII checks give the same verdict as the
  corresponding per-character checks (a non-ASCII character fails both), so
  the character-level model is extensionally faithful.
* `f64` becomes the inductive `F64` with constructors for NaN, the two
  infinities, and finite values carrying an exact rational payload; `+` is
  IEEE-style on the special values and exact on finite ones.  Rust's default
  `Display` for finite doubles (shortest round-trip decimal) is modelled by
  the exact decimal rendering `ratToStr` of the rational payload.
* An `io::Write` sink becomes an append-only list of emitted lines (every
  write in the source is a whole-line `writeln!`); writes cannot fail in the
  model, as no claim concerns I/O failure.
* A Rust `panic!` becomes an `Option` result: `none` means the call panics.
-/

/-- Rust strings, modelled as lists of characters. -/
abbrev Str := List Char

/-- Decimal digits of a natural number, most significant first. -/
def natToStr (n : Nat) : Str :=
  Nat.toDigits 10 n

/-- Rendering of an `i64` by Rust's `Display` (used for `now_millis`). -/
def intToStr (i : Int) : Str :=
  if i < 0 then '-' :: natToStr (-i).toNat else natToStr i.toNat

/-- Decimal digits after the point for the fraction `r / d`, with fuel.
Stops when the remainder reaches zero, so no trailing zeros are produced. -/
def fracDigits (d : Nat) : Nat → Nat → Str
  | 0, _ => []
  | fuel + 1, r =>
    if r = 0 then []
    else Nat.digitChar (r * 10 / d) :: fracDigits d fuel (r * 10 % d)

/-- Exact fractions (numerator over positive denominator, not necessarily
reduced): the payload of finite `f64` values.  Every finite double is such a
fraction, and exact fraction arithmetic is the model of the double
arithmetic the encoder performs. -/
structure Frac where
  num : Int
  den : Nat
deriving DecidableEq

instance (n : Nat) : OfNat Frac n := ⟨⟨n, 1⟩⟩

/-- Exact addition of fractions. -/
def Frac.add (a b : Frac) : Frac :=
  ⟨a.num * b.den + b.num * a.den, a.den * b.den⟩

/-- Numeric equality of fractions (cross multiplication). -/
def Frac.numEq (a b : Frac) : Bool :=
  a.num * b.den == b.num * a.den

/-- Exact decimal rendering of a fraction: sign, integer part, and (when the
remainder is nonzero) a point followed by fraction digits.  Stands in for
Rust's shortest round-trip `Display` of a finite `f64`. -/
def ratToStr (q : Frac) : Str :=
  let sign : Str := if q.num < 0 then ['-'] else []
  let n := q.num.natAbs
  let d := q.den
  let frac := fracDigits d 1200 (n % d)
  sign ++ natToStr (n / d) ++ (if frac = [] then [] else '.' :: frac)

/-- The `f64` values relevant to the encoder: NaN, the infinities, and finite
values with an exact fractional payload. -/
inductive F64 where
  | nan : F64
  | posInf : F64
  | negInf : F64
  | finite : Frac → F64
deriving DecidableEq

/-- IEEE-style addition on `F64` (`total += v` in the histogram loop);
finite addition is exact. -/
def F64.add : F64 → F64 → F64
  | .nan, _ => .nan
  | _, .nan => .nan
  | .posInf, .negInf => .nan
  | .negInf, .posInf => .nan
  | .posInf, _ => .posInf
  | _, .posInf => .posInf
  | .negInf, _ => .negInf
  | _, .negInf => .negInf
  | .finite a, .finite b => .finite (a.add b)

/-- `f64::is_nan`. -/
def F64.isNan : F64 → Bool
  | .nan => true
  | _ => false

/-- IEEE `==` on `f64`: NaN compares unequal to everything, including itself. -/
def F64.ieeeEq : F64 → F64 → Bool
  | .nan, _ => false
  | _, .nan => false
  | .posInf, .posInf => true
  | .negInf, .negInf => true
  | .finite a, .finite b => a.numEq b
  | _, _ => false

/-- Rust's plain `Display` for `f64` (`"{}"`, also `f64::to_string`):
`NaN`, `inf`, `-inf`, or the shortest decimal form of a finite value. -/
def F64.display : F64 → Str
  | .nan => "NaN".data
  | .posInf => "inf".data
  | .negInf => "-inf".data
  | .finite q => ratToStr q

/-- Embeds the `Display` impl of `FormattedValue` (src/lib.rs:10-28): NaN and
the infinities render as the Prometheus tokens, everything else via the
default `Display`. -/
def FormattedValue (value : F64) : Str :=
  if value.isNan then "NaN".data
  else if F64.ieeeEq value F64.posInf then "+Inf".data
  else if F64.ieeeEq value F64.negInf then "-Inf".data
  else value.display

/-- Embeds `validate_prometheus_name` (src/lib.rs:352-367): `true` means the
function returns normally, `false` means it panics.  Empty names are
rejected; the first character must be ASCII alphabetic or an underscore and
the rest ASCII alphanumeric or underscores. -/
def validate_prometheus_name : Str → Bool
  | [] => false
  | c :: rest =>
    (c.isAlpha || c = '_') && rest.all (fun ch => ch.isAlphanum || ch = '_')

/-- The per-character escaping of label values inside `encode_labels`
(src/lib.rs:311-327). -/
def escapeChar (c : Char) : Str :=
  if c = '\\' then ['\\', '\\']
  else if c = '\n' then ['\\', 'n']
  else if c = '"' then ['\\', '"']
  else [c]

/-- Escaping of a whole label value, character by character. -/
def escapeValue (v : Str) : Str :=
  v.flatMap escapeChar

/-- The loop body of `encode_labels` (src/lib.rs:301-331): `i` is the
enumeration index (a comma is pushed before every pair except the first),
`buf` the accumulator; an invalid key panics (`none`). -/
def encodeLabelsAux : Nat → Str → List (Str × Str) → Option Str
  | _, buf, [] => some buf
  | i, buf, (k, v) :: rest =>
    if validate_prometheus_name k then
      encodeLabelsAux (i + 1)
        (buf ++ (if i > 0 then [','] else []) ++ k ++ '=' :: '"' :: (escapeValue v ++ ['"']))
        rest
    else none

/-- Embeds `MetricsEncoder::encode_labels` (src/lib.rs:301-331). -/
def encode_labels (labels : List (Str × Str)) : Option Str :=
  encodeLabelsAux 0 [] labels

example : validate_prometheus_name "requests_total".data = true := by decide
example : validate_prometheus_name "2xx".data = false := by decide
example : validate_prometheus_name "_ok".data = true := by decide
example : validate_prometheus_name "Ok_1".data = true := by decide
example : validate_prometheus_name [] = false := by decide
example : ratToStr 42 = "42".data := by decide
example : ratToStr ⟨15, 2⟩ = "7.5".data := by decide
example : intToStr 1000 = "1000".data := by decide
example : escapeValue "say \"hi\"".data = "say \\\"hi\\\"".data := by decide
example :
    encode_labels [("code".data, "500".data)] = some "code=\"500\"".data := by decide

/-- Embeds `MetricsEncoder` (src/lib.rs:171-174): the sink is the list of
emitted lines, `now_millis` the timestamp fixed at construction. -/
structure MetricsEncoder where
  writer : List Str
  now_millis : Int
deriving DecidableEq

/-- One `writeln!` to the sink: appends a single line. -/
def writeLine (e : MetricsEncoder) (line : Str) : MetricsEncoder :=
  { e with writer := e.writer ++ [line] }

/-- Embeds `MetricsEncoder::encode_header` (src/lib.rs:189-192). -/
def encode_header (e : MetricsEncoder) (name help typ : Str) : MetricsEncoder :=
  writeLine (writeLine e ("# HELP ".data ++ name ++ [' '] ++ help))
    ("# TYPE ".data ++ name ++ [' '] ++ typ)

/-- Embeds `MetricsEncoder::encode_single_value` (src/lib.rs:227-243). -/
def encode_single_value (e : MetricsEncoder) (typ name : Str) (value : F64) (help : Str) :
    Option MetricsEncoder :=
  if validate_prometheus_name name then
    some (writeLine (encode_header e name help typ)
      (name ++ [' '] ++ FormattedValue value ++ [' '] ++ intToStr e.now_millis))
  else none

/-- Embeds `MetricsEncoder::encode_counter` (src/lib.rs:250-252). -/
def encode_counter (e : MetricsEncoder) (name : Str) (value : F64) (help : Str) :
    Option MetricsEncoder :=
  encode_single_value e "counter".data name value help

/-- Embeds `MetricsEncoder::encode_gauge` (src/lib.rs:259-261). -/
def encode_gauge (e : MetricsEncoder) (name : Str) (value : F64) (help : Str) :
    Option MetricsEncoder :=
  encode_single_value e "gauge".data name value help

/-- Embeds `MetricsEncoder::encode_value_with_labels` (src/lib.rs:333-347).
The braces around the serialized labels are part of the format string, so
they are always emitted. -/
def encode_value_with_labels (e : MetricsEncoder) (name : Str)
    (label_values : List (Str × Str)) (value : F64) : Option MetricsEncoder :=
  match encode_labels label_values with
  | none => none
  | some interior =>
    some (writeLine e
      (name ++ '{' :: interior ++ "\x7d ".data ++ FormattedValue value ++ [' ']
        ++ intToStr e.now_millis))

/-- Embeds `LabeledMetricsBuilder` (src/lib.rs:33-39): the handle keeps the
metric name; the encoder is passed explicitly in the state-passing style. -/
structure LabeledMetricsBuilder where
  name : Str

/-- Embeds `LabeledMetricsBuilder::value` (src/lib.rs:49-53). -/
def LabeledMetricsBuilder.value (b : LabeledMetricsBuilder) (e : MetricsEncoder)
    (labels : List (Str × Str)) (value : F64) : Option MetricsEncoder :=
  encode_value_with_labels e b.name labels value

/-- Embeds `MetricsEncoder::counter_vec` (src/lib.rs:269-280). -/
def counter_vec (e : MetricsEncoder) (name help : Str) :
    Option (MetricsEncoder × LabeledMetricsBuilder) :=
  if validate_prometheus_name name then
    some (encode_header e name help "counter".data, ⟨name⟩)
  else none

/-- Embeds `MetricsEncoder::gauge_vec` (src/lib.rs:288-299). -/
def gauge_vec (e : MetricsEncoder) (name help : Str) :
    Option (MetricsEncoder × LabeledMetricsBuilder) :=
  if validate_prometheus_name name then
    some (encode_header e name help "gauge".data, ⟨name⟩)
  else none

/-- One histogram bucket line
`<name>_bucket{<interior>} <total> <timestamp>`; the running total is
rendered with the plain `Display` (`"{}"` in the `writeln!`), not through
`FormattedValue`. -/
def bucketLine (name interior : Str) (total : F64) (ts : Int) : Str :=
  name ++ "_bucket\x7b".data ++ interior ++ "\x7d ".data ++ F64.display total
    ++ [' '] ++ intToStr ts

/-- The bucket loop of `LabeledHistogramBuilder::histogram`
(src/lib.rs:85-112), threading the encoder, the running `total`, and the
`saw_infinity` flag.  The bound is compared to infinity with IEEE `==`; an
infinite bound renders the `le` value as the literal `+Inf`, any other bound
via `f64::to_string`. -/
def histogramLoop (name : Str) (labels : List (Str × Str)) :
    MetricsEncoder → F64 → Bool → List (F64 × F64) → Option (MetricsEncoder × F64 × Bool)
  | e, total, sawInf, [] => some (e, total, sawInf)
  | e, total, sawInf, (bucket, v) :: rest =>
    let total1 := F64.add total v
    if F64.ieeeEq bucket F64.posInf then
      match encode_labels (labels ++ [("le".data, "+Inf".data)]) with
      | none => none
      | some interior =>
        histogramLoop name labels
          (writeLine e (bucketLine name interior total1 e.now_millis)) total1 true rest
    else
      match encode_labels (labels ++ [("le".data, F64.display bucket)]) with
      | none => none
      | some interior =>
        histogramLoop name labels
          (writeLine e (bucketLine name interior total1 e.now_millis)) total1 sawInf rest

/-- Embeds `LabeledHistogramBuilder` (src/lib.rs:59-65). -/
structure LabeledHistogramBuilder where
  name : Str

/-- Embeds `LabeledHistogramBuilder::histogram` (src/lib.rs:75-159): validate
the label keys, run the bucket loop, synthesize a terminal `+Inf` bucket when
no explicit infinite bucket was seen, then emit the `_sum` and `_count`
lines (brace-less when the label set is empty).  `_sum` renders the
caller-supplied `sum`; `_count` renders the accumulated `total`. -/
def LabeledHistogramBuilder.histogram (b : LabeledHistogramBuilder) (e : MetricsEncoder)
    (labels : List (Str × Str)) (buckets : List (F64 × F64)) (sum : F64) :
    Option MetricsEncoder :=
  if labels.all (fun kv => validate_prometheus_name kv.1) then
    match histogramLoop b.name labels e (F64.finite 0) false buckets with
    | none => none
    | some (e1, total, sawInf) =>
      let afterInf : Option MetricsEncoder :=
        if sawInf then some e1
        else
          match encode_labels (labels ++ [("le".data, "+Inf".data)]) with
          | none => none
          | some interior =>
            some (writeLine e1 (bucketLine b.name interior total e1.now_millis))
      match afterInf with
      | none => none
      | some e2 =>
        if labels.isEmpty then
          some (writeLine
            (writeLine e2
              (b.name ++ "_sum ".data ++ FormattedValue sum ++ [' ']
                ++ intToStr e2.now_millis))
            (b.name ++ "_count ".data ++ FormattedValue total ++ [' ']
              ++ intToStr e2.now_millis))
        else
          match encode_labels labels with
          | none => none
          | some interior =>
            some (writeLine
              (writeLine e2
                (b.name ++ "_sum\x7b".data ++ interior ++ "\x7d ".data
                  ++ FormattedValue sum ++ [' '] ++ intToStr e2.now_millis))
              (b.name ++ "_count\x7b".data ++ interior ++ "\x7d ".data
                ++ FormattedValue total ++ [' '] ++ intToStr e2.now_millis))
  else none

/-- Embeds `MetricsEncoder::histogram_vec` (src/lib.rs:214-225). -/
def histogram_vec (e : MetricsEncoder) (name help : Str) :
    Option (MetricsEncoder × LabeledHistogramBuilder) :=
  if validate_prometheus_name name then
    some (encode_header e name help "histogram".data, ⟨name⟩)
  else none

/-- Embeds `MetricsEncoder::encode_histogram` (src/lib.rs:202-212). -/
def encode_histogram (e : MetricsEncoder) (name : Str) (buckets : List (F64 × F64))
    (sum : F64) (help : Str) : Option MetricsEncoder :=
  match histogram_vec e name help with
  | none => none
  | some (e1, b) => b.histogram e1 [] buckets sum

/-- Modelled from the spec: the name pattern `[A-Za-z_][A-Za-z0-9_]*`
(anchored), read off the specification's regular expression. -/
def matchesPromNamePattern : Str → Bool
  | [] => false
  | c :: rest =>
    ((decide ('A' ≤ c) && decide (c ≤ 'Z')) || (decide ('a' ≤ c) && decide (c ≤ 'z'))
      || c = '_') &&
      rest.all (fun ch =>
        (decide ('A' ≤ ch) && decide (ch ≤ 'Z')) || (decide ('a' ≤ ch) && decide (ch ≤ 'z'))
          || (decide ('0' ≤ ch) && decide (ch ≤ '9')) || ch = '_')

/-- Modelled from the spec: the standard exposition-format un-escaping of a
label value (the inverse reading of `\\`, `\n`, and `\"`), which is not part
of this crate.  A backslash starts an escape sequence consuming the next
character; anything else passes through. -/
def unescapeValue : Str → Str
  | [] => []
  | c :: rest =>
    if c = '\\' then
      match rest with
      | [] => ['\\']
      | d :: rest2 =>
        (if d = '\\' then '\\' else if d = 'n' then '\n' else if d = '"' then '"' else d)
          :: unescapeValue rest2
    else c :: unescapeValue rest

/-- The serialized form of one label pair, `key="escaped-value"`. -/
def encodeLabelPair (kv : Str × Str) : Str :=
  kv.1 ++ '=' :: '"' :: (escapeValue kv.2 ++ ['"'])

/-- The brace-interior text `k1="v1",k2="v2",...` in caller order, written
as the spec describes it (first pair, then a comma before each later pair). -/
def specLabelText : List (Str × Str) → Str
  | [] => []
  | kv :: rest => encodeLabelPair kv ++ (rest.map (fun kv2 => ',' :: encodeLabelPair kv2)).flatten

/-- The accumulated total of all per-bucket counts, folded in caller order
starting from zero, exactly as the histogram loop accumulates it. -/
def histTotal (buckets : List (F64 × F64)) : F64 :=
  buckets.foldl (fun t p => F64.add t p.2) (F64.finite 0)

/-- Whether some input bucket has a bound IEEE-equal to positive infinity. -/
def sawInfinity (buckets : List (F64 × F64)) : Bool :=
  buckets.any (fun p => F64.ieeeEq p.1 F64.posInf)

/-- The explicit bucket lines the histogram loop emits, as a pure function of
the inputs: one line per bucket, carrying the running cumulative total. -/
def pureBucketLines (name : Str) (labels : List (Str × Str)) (ts : Int) :
    F64 → List (F64 × F64) → List Str
  | _, [] => []
  | total, (bucket, v) :: rest =>
    bucketLine name
      (specLabelText (labels ++ [("le".data,
        if F64.ieeeEq bucket F64.posInf then "+Inf".data else F64.display bucket)]))
      (F64.add total v) ts
      :: pureBucketLines name labels ts (F64.add total v) rest

/-- The `_sum` line of a histogram: brace-less for an empty label set. -/
def sum_line (name : Str) (labels : List (Str × Str)) (sum : F64) (ts : Int) : Str :=
  if labels.isEmpty then
    name ++ "_sum ".data ++ FormattedValue sum ++ [' '] ++ intToStr ts
  else
    name ++ "_sum\x7b".data ++ specLabelText labels ++ "\x7d ".data
      ++ FormattedValue sum ++ [' '] ++ intToStr ts

/-- The `_count` line of a histogram: brace-less for an empty label set; the
rendered value is the accumulated bucket total, never the `sum` argument. -/
def count_line (name : Str) (labels : List (Str × Str)) (total : F64) (ts : Int) : Str :=
  if labels.isEmpty then
    name ++ "_count ".data ++ FormattedValue total ++ [' '] ++ intToStr ts
  else
    name ++ "_count\x7b".data ++ specLabelText labels ++ "\x7d ".data
      ++ FormattedValue total ++ [' '] ++ intToStr ts

example :
    encode_histogram ⟨[], 2000⟩ "h".data
      [(F64.finite 1, F64.finite 2), (F64.finite 5, F64.finite 3)] (F64.finite ⟨15, 2⟩)
      "observed".data =
    some ⟨["# HELP h observed".data,
           "# TYPE h histogram".data,
           "h_bucket\x7ble=\"1\"\x7d 2 2000".data,
           "h_bucket\x7ble=\"5\"\x7d 5 2000".data,
           "h_bucket\x7ble=\"+Inf\"\x7d 5 2000".data,
           "h_sum 7.5 2000".data,
           "h_count 5 2000".data], 2000⟩ := by decide

/-! ### Characterization of the label serializer -/

theorem encodeLabelsAux_tail (labels : List (Str × Str)) :
    ∀ (i : Nat) (buf : Str), 1 ≤ i →
    (∀ kv ∈ labels, validate_prometheus_name kv.1 = true) →
    encodeLabelsAux i buf labels =
      some (buf ++ (labels.map (fun kv => ',' :: encodeLabelPair kv)).flatten) := by
  induction labels with
  | nil => intro i buf _ _; simp [encodeLabelsAux]
  | cons kv rest ih =>
    intro i buf hi h
    obtain ⟨k, v⟩ := kv
    have hk : validate_prometheus_name k = true := h (k, v) (by simp)
    have hrest : ∀ kv ∈ rest, validate_prometheus_name kv.1 = true := by
      intro kv hkv; exact h kv (List.mem_cons_of_mem _ hkv)
    have hip : i > 0 := hi
    simp only [encodeLabelsAux, hk, if_pos, hip, if_true]
    rw [ih (i + 1) _ (by omega) hrest]
    simp [encodeLabelPair, List.append_assoc]

theorem encode_labels_eq (labels : List (Str × Str))
    (h : ∀ kv ∈ labels, validate_prometheus_name kv.1 = true) :
    encode_labels labels = some (specLabelText labels) := by
  cases labels with
  | nil => rfl
  | cons kv rest =>
    obtain ⟨k, v⟩ := kv
    have hk : validate_prometheus_name k = true := h (k, v) (by simp)
    have hrest : ∀ kv ∈ rest, validate_prometheus_name kv.1 = true := by
      intro kv hkv; exact h kv (List.mem_cons_of_mem _ hkv)
    simp only [encode_labels, encodeLabelsAux, hk, if_pos]
    rw [encodeLabelsAux_tail rest 1 _ (by omega) hrest]
    simp [specLabelText, encodeLabelPair]

/-! ### Characterization of the histogram path -/

theorem le_key_valid : validate_prometheus_name "le".data = true := by decide

theorem histogramLoop_eq (name : Str) (labels : List (Str × Str))
    (hval : ∀ kv ∈ labels, validate_prometheus_name kv.1 = true) :
    ∀ (buckets : List (F64 × F64)) (e : MetricsEncoder) (total : F64) (sawInf : Bool),
    histogramLoop name labels e total sawInf buckets =
      some (⟨e.writer ++ pureBucketLines name labels e.now_millis total buckets, e.now_millis⟩,
            buckets.foldl (fun t p => F64.add t p.2) total,
            sawInf || buckets.any (fun p => F64.ieeeEq p.1 F64.posInf)) := by
  intro buckets
  induction buckets with
  | nil => intro e total sawInf; simp [histogramLoop, pureBucketLines]
  | cons bv rest ih =>
    intro e total sawInf
    obtain ⟨bucket, v⟩ := bv
    have hle : ∀ s : Str, ∀ kv ∈ labels ++ [("le".data, s)],
        validate_prometheus_name kv.1 = true := by
      intro s kv hkv
      rcases List.mem_append.mp hkv with h | h
      · exact hval kv h
      · simp only [List.mem_singleton] at h; subst h; exact le_key_valid
    by_cases hb : F64.ieeeEq bucket F64.posInf = true
    · simp only [histogramLoop, hb, if_pos,
        encode_labels_eq (labels ++ [("le".data, "+Inf".data)]) (hle _)]
      rw [ih]
      simp [writeLine, pureBucketLines, hb, List.append_assoc]
    · rw [Bool.not_eq_true] at hb
      simp only [histogramLoop, hb, Bool.false_eq_true, if_false,
        encode_labels_eq (labels ++ [("le".data, F64.display bucket)]) (hle _)]
      rw [ih]
      simp [writeLine, pureBucketLines, hb, List.append_assoc]

theorem histogram_eq (b : LabeledHistogramBuilder) (e : MetricsEncoder)
    (labels : List (Str × Str)) (buckets : List (F64 × F64)) (sum : F64)
    (hval : ∀ kv ∈ labels, validate_prometheus_name kv.1 = true) :
    b.histogram e labels buckets sum =
      some ⟨e.writer
          ++ pureBucketLines b.name labels e.now_millis (F64.finite 0) buckets
          ++ (if sawInfinity buckets then []
              else [bucketLine b.name (specLabelText (labels ++ [("le".data, "+Inf".data)]))
                      (histTotal buckets) e.now_millis])
          ++ [sum_line b.name labels sum e.now_millis,
              count_line b.name labels (histTotal buckets) e.now_millis],
        e.now_millis⟩ := by
  have hall : (labels.all fun kv => validate_prometheus_name kv.1) = true :=
    List.all_eq_true.mpr hval
  have hle : ∀ kv ∈ labels ++ [("le".data, "+Inf".data)],
      validate_prometheus_name kv.1 = true := by
    intro kv hkv
    rcases List.mem_append.mp hkv with h | h
    · exact hval kv h
    · simp only [List.mem_singleton] at h; subst h; exact le_key_valid
  simp only [LabeledHistogramBuilder.histogram, hall, if_pos,
    histogramLoop_eq b.name labels hval buckets e (F64.finite 0) false]
  cases hsb : sawInfinity buckets with
  | true =>
    have hany : buckets.any (fun p => F64.ieeeEq p.1 F64.posInf) = true := hsb
    simp only [hany, Bool.false_or, if_pos]
    cases hl : labels with
    | nil =>
      simp [writeLine, sum_line, count_line, histTotal, List.append_assoc]
    | cons kv rest =>
      rw [← hl]
      have hne : labels.isEmpty = false := by rw [hl]; rfl
      simp only [hne, Bool.false_eq_true, if_false, encode_labels_eq labels hval]
      simp [writeLine, sum_line, count_line, hne, histTotal, List.append_assoc]
  | false =>
    have hany : buckets.any (fun p => F64.ieeeEq p.1 F64.posInf) = false := hsb
    simp only [hany, Bool.false_or, Bool.false_eq_true, if_false,
      encode_labels_eq (labels ++ [("le".data, "+Inf".data)]) hle]
    cases hl : labels with
    | nil =>
      simp [writeLine, sum_line, count_line, histTotal, List.append_assoc]
    | cons kv rest =>
      rw [← hl]
      have hne : labels.isEmpty = false := by rw [hl]; rfl
      simp only [hne, Bool.false_eq_true, if_false, encode_labels_eq labels hval]
      simp [writeLine, sum_line, count_line, hne, histTotal, List.append_assoc]

theorem histogram_valid_of_some {b : LabeledHistogramBuilder} {e : MetricsEncoder}
    {labels : List (Str × Str)} {buckets : List (F64 × F64)} {sum : F64} {e' : MetricsEncoder}
    (h : b.histogram e labels buckets sum = some e') :
    ∀ kv ∈ labels, validate_prometheus_name kv.1 = true := by
  by_cases hall : (labels.all fun kv => validate_prometheus_name kv.1) = true
  · exact List.all_eq_true.mp hall
  · rw [Bool.not_eq_true] at hall
    simp only [LabeledHistogramBuilder.histogram, hall, Bool.false_eq_true, if_false] at h
    exact absurd h (by simp)

theorem pureBucketLines_concat (name : Str) (labels : List (Str × Str)) (ts : Int) :
    ∀ (buckets : List (F64 × F64)) (total : F64), buckets ≠ [] →
    ∃ (L : List Str) (leVal : Str),
      pureBucketLines name labels ts total buckets =
        L ++ [bucketLine name (specLabelText (labels ++ [("le".data, leVal)]))
                (buckets.foldl (fun t q => F64.add t q.2) total) ts] := by
  intro buckets
  induction buckets with
  | nil => intro total h; exact absurd rfl h
  | cons bv rest ih =>
    intro total _
    obtain ⟨bucket, v⟩ := bv
    cases rest with
    | nil =>
      refine ⟨[], if F64.ieeeEq bucket F64.posInf then "+Inf".data else F64.display bucket, ?_⟩
      simp [pureBucketLines]
    | cons bv2 rest2 =>
      obtain ⟨L, leVal, hL⟩ := ih (F64.add total v) (by simp)
      refine ⟨bucketLine name
          (specLabelText (labels ++ [("le".data,
            if F64.ieeeEq bucket F64.posInf then "+Inf".data else F64.display bucket)]))
          (F64.add total v) ts :: L, leVal, ?_⟩
      have step : pureBucketLines name labels ts total ((bucket, v) :: bv2 :: rest2) =
          bucketLine name
            (specLabelText (labels ++ [("le".data,
              if F64.ieeeEq bucket F64.posInf then "+Inf".data else F64.display bucket)]))
            (F64.add total v) ts
            :: pureBucketLines name labels ts (F64.add total v) (bv2 :: rest2) := rfl
      rw [step, hL]
      simp

theorem pureBucketLines_mem (name : Str) (labels : List (Str × Str)) (ts : Int) :
    ∀ (buckets : List (F64 × F64)) (total : F64) (l : Str),
    l ∈ pureBucketLines name labels ts total buckets →
    ∃ leVal t, l = bucketLine name (specLabelText (labels ++ [("le".data, leVal)])) t ts := by
  intro buckets
  induction buckets with
  | nil => intro total l hl; simp [pureBucketLines] at hl
  | cons bv rest ih =>
    intro total l hl
    obtain ⟨bucket, v⟩ := bv
    simp only [pureBucketLines, List.mem_cons] at hl
    rcases hl with hl | hl
    · exact ⟨_, _, hl⟩
    · exact ih (F64.add total v) l hl

theorem getLast?_append_pair {α : Type} (X : List α) (a c : α) :
    (X ++ [a, c]).getLast? = some c := by
  rw [show X ++ [a, c] = (X ++ [a]) ++ [c] by simp]
  exact List.getLast?_concat _

theorem bucketLine_ends_ts (name interior : Str) (total : F64) (ts : Int) :
    ∃ pre, bucketLine name interior total ts = pre ++ ' ' :: intToStr ts :=
  ⟨name ++ "_bucket\x7b".data ++ interior ++ "\x7d ".data ++ F64.display total, by
    simp [bucketLine]⟩

theorem sum_line_ends_ts (name : Str) (labels : List (Str × Str)) (sum : F64) (ts : Int) :
    ∃ pre, sum_line name labels sum ts = pre ++ ' ' :: intToStr ts := by
  by_cases hl : labels.isEmpty
  · exact ⟨name ++ "_sum ".data ++ FormattedValue sum, by simp [sum_line, hl]⟩
  · rw [Bool.not_eq_true] at hl
    exact ⟨name ++ "_sum\x7b".data ++ specLabelText labels ++ "\x7d ".data
      ++ FormattedValue sum, by simp [sum_line, hl]⟩

theorem count_line_ends_ts (name : Str) (labels : List (Str × Str)) (total : F64) (ts : Int) :
    ∃ pre, count_line name labels total ts = pre ++ ' ' :: intToStr ts := by
  by_cases hl : labels.isEmpty
  · exact ⟨name ++ "_count ".data ++ FormattedValue total, by simp [count_line, hl]⟩
  · rw [Bool.not_eq_true] at hl
    exact ⟨name ++ "_count\x7b".data ++ specLabelText labels ++ "\x7d ".data
      ++ FormattedValue total, by simp [count_line, hl]⟩

/-! ### The claims -/

/-- Claim C1: for every successful call of `LabeledHistogramBuilder.histogram`
the final emitted bucket line carries the accumulated total of all per-bucket
counts (`histTotal buckets`), the `_count` line carries that same total, and
the caller-supplied `sum` is never used for `_count` (changing `sum` leaves
the final `_count` line unchanged). -/
theorem hist_count_eq_bucket_total
    (b : LabeledHistogramBuilder) (e : MetricsEncoder) (labels : List (Str × Str))
    (buckets : List (F64 × F64)) (sum : F64) (e' : MetricsEncoder)
    (h : b.histogram e labels buckets sum = some e') :
    (∃ pre leVal,
      e'.writer = pre
        ++ [bucketLine b.name (specLabelText (labels ++ [("le".data, leVal)]))
              (histTotal buckets) e.now_millis,
            sum_line b.name labels sum e.now_millis,
            count_line b.name labels (histTotal buckets) e.now_millis]) ∧
    (∀ sum2 : F64, ∃ e2, b.histogram e labels buckets sum2 = some e2 ∧
      e2.writer.getLast? = e'.writer.getLast?) := by
  have hval := histogram_valid_of_some h
  rw [histogram_eq b e labels buckets sum hval] at h
  have he' : e' = _ := (Option.some.inj h).symm
  subst he'
  constructor
  · cases hsb : sawInfinity buckets with
    | false =>
      refine ⟨e.writer ++ pureBucketLines b.name labels e.now_millis (F64.finite 0) buckets,
        "+Inf".data, ?_⟩
      simp [hsb, List.append_assoc]
    | true =>
      have hne : buckets ≠ [] := by
        intro hnil; rw [hnil] at hsb; simp [sawInfinity] at hsb
      obtain ⟨L, leVal, hL⟩ :=
        pureBucketLines_concat b.name labels e.now_millis buckets (F64.finite 0) hne
      refine ⟨e.writer ++ L, leVal, ?_⟩
      simp [hsb, hL, histTotal, List.append_assoc]
  · intro sum2
    refine ⟨_, histogram_eq b e labels buckets sum2 hval, ?_⟩
    rw [getLast?_append_pair, getLast?_append_pair]

/-- Claim C2: when no input bucket has an infinite bound, exactly one extra
terminal `le="+Inf"` bucket line is appended after the explicit bucket lines,
carrying the accumulated total (zero for an empty sequence); when some bucket
has an infinite bound, no extra line is synthesized. -/
theorem hist_inf_bucket_synthesis
    (b : LabeledHistogramBuilder) (e : MetricsEncoder) (labels : List (Str × Str))
    (buckets : List (F64 × F64)) (sum : F64) (e' : MetricsEncoder)
    (h : b.histogram e labels buckets sum = some e') :
    (sawInfinity buckets = false →
      e'.writer = e.writer
        ++ pureBucketLines b.name labels e.now_millis (F64.finite 0) buckets
        ++ [bucketLine b.name (specLabelText (labels ++ [("le".data, "+Inf".data)]))
              (histTotal buckets) e.now_millis,
            sum_line b.name labels sum e.now_millis,
            count_line b.name labels (histTotal buckets) e.now_millis]) ∧
    (sawInfinity buckets = true →
      e'.writer = e.writer
        ++ pureBucketLines b.name labels e.now_millis (F64.finite 0) buckets
        ++ [sum_line b.name labels sum e.now_millis,
            count_line b.name labels (histTotal buckets) e.now_millis]) := by
  have hval := histogram_valid_of_some h
  rw [histogram_eq b e labels buckets sum hval] at h
  have he' : e' = _ := (Option.some.inj h).symm
  subst he'
  constructor
  · intro hsb; simp [hsb, List.append_assoc]
  · intro hsb; simp [hsb, List.append_assoc]

/-- Claim C3, counterexample: with an empty label set the emitted bucket
line does NOT omit braces — the histogram call with no labels and no buckets
emits `m_bucket{le="+Inf"} 0 7`, whose text contains a brace. -/
theorem hist_bucket_braces_cex :
    LabeledHistogramBuilder.histogram ⟨"m".data⟩ ⟨[], 7⟩ [] [] (F64.finite 0) =
      some ⟨["m_bucket\x7ble=\"+Inf\"\x7d 0 7".data,
             "m_sum 0 7".data, "m_count 0 7".data], 7⟩ ∧
    '{' ∈ "m_bucket\x7ble=\"+Inf\"\x7d 0 7".data := by decide

/-- Claim C3, amended: with an empty label set the `_sum` and `_count` lines
omit braces entirely, while every bucket line carries braces whose interior
is the non-empty `le="…"` pair; no emitted line carries empty braces. -/
theorem hist_empty_labels_braces
    (b : LabeledHistogramBuilder) (e : MetricsEncoder) (buckets : List (F64 × F64))
    (sum : F64) (e' : MetricsEncoder)
    (h : b.histogram e [] buckets sum = some e') :
    ∃ blines,
      e'.writer = e.writer ++ blines
        ++ [b.name ++ "_sum ".data ++ FormattedValue sum ++ [' '] ++ intToStr e.now_millis,
            b.name ++ "_count ".data ++ FormattedValue (histTotal buckets) ++ [' ']
              ++ intToStr e.now_millis] ∧
      ∀ l ∈ blines, ∃ leVal total,
        l = bucketLine b.name (encodeLabelPair ("le".data, leVal)) total e.now_millis := by
  have hval := histogram_valid_of_some h
  rw [histogram_eq b e [] buckets sum hval] at h
  have he' : e' = _ := (Option.some.inj h).symm
  subst he'
  refine ⟨pureBucketLines b.name [] e.now_millis (F64.finite 0) buckets
      ++ (if sawInfinity buckets then [] else
          [bucketLine b.name (specLabelText ([] ++ [("le".data, "+Inf".data)]))
            (histTotal buckets) e.now_millis]), ?_, ?_⟩
  · simp [sum_line, count_line, List.append_assoc]
  · intro l hl
    rcases List.mem_append.mp hl with hm | hm
    · obtain ⟨leVal, t, hlv⟩ :=
        pureBucketLines_mem b.name [] e.now_millis buckets (F64.finite 0) l hm
      refine ⟨leVal, t, ?_⟩
      rw [hlv]; simp [specLabelText]
    · cases hsb : sawInfinity buckets with
      | true => rw [hsb] at hm; simp at hm
      | false =>
        rw [hsb] at hm
        simp only [Bool.false_eq_true, if_false, List.mem_singleton] at hm
        subst hm
        refine ⟨"+Inf".data, histTotal buckets, ?_⟩
        simp [specLabelText]

/-- Claim C9: the timestamp is fixed at construction — no encoding operation
changes `now_millis`, and every data line emitted (labeled value,
single value, histogram bucket, `_sum`, `_count`) ends with
`<space><now_millis>` for the construction-time timestamp. -/
theorem timestamp_frozen (e : MetricsEncoder) :
    (∀ name labels value e1, encode_value_with_labels e name labels value = some e1 →
      e1.now_millis = e.now_millis ∧
      ∃ pre, e1.writer = e.writer ++ [pre ++ ' ' :: intToStr e.now_millis]) ∧
    (∀ typ name value help e1, encode_single_value e typ name value help = some e1 →
      e1.now_millis = e.now_millis ∧
      ∃ h1 h2 pre, e1.writer = e.writer ++ [h1, h2, pre ++ ' ' :: intToStr e.now_millis]) ∧
    (∀ b labels buckets sum e1,
      LabeledHistogramBuilder.histogram b e labels buckets sum = some e1 →
      e1.now_millis = e.now_millis ∧
      ∀ l ∈ e1.writer.drop e.writer.length, ∃ pre, l = pre ++ ' ' :: intToStr e.now_millis) := by
  refine ⟨?_, ?_, ?_⟩
  · intro name labels value e1 h
    cases hel : encode_labels labels with
    | none => rw [encode_value_with_labels, hel] at h; exact absurd h (by simp)
    | some interior =>
      rw [encode_value_with_labels, hel] at h
      have he1 : e1 = _ := (Option.some.inj h).symm
      subst he1
      refine ⟨rfl, name ++ '{' :: interior ++ "\x7d ".data ++ FormattedValue value, ?_⟩
      simp [writeLine, List.append_assoc]
  · intro typ name value help e1 h
    cases hv : validate_prometheus_name name with
    | false => rw [encode_single_value, hv] at h; exact absurd h (by simp)
    | true =>
      rw [encode_single_value, hv] at h
      simp only [if_true] at h
      have he1 : e1 = _ := (Option.some.inj h).symm
      subst he1
      refine ⟨rfl, "# HELP ".data ++ name ++ [' '] ++ help,
        "# TYPE ".data ++ name ++ [' '] ++ typ,
        name ++ [' '] ++ FormattedValue value, ?_⟩
      simp [writeLine, encode_header, List.append_assoc]
  · intro b labels buckets sum e1 h
    have hval := histogram_valid_of_some h
    rw [histogram_eq b e labels buckets sum hval] at h
    have he1 : e1 = _ := (Option.some.inj h).symm
    subst he1
    refine ⟨rfl, ?_⟩
    intro l hl
    have hw : (e.writer
        ++ pureBucketLines b.name labels e.now_millis (F64.finite 0) buckets
        ++ (if sawInfinity buckets then []
            else [bucketLine b.name (specLabelText (labels ++ [("le".data, "+Inf".data)]))
                    (histTotal buckets) e.now_millis])
        ++ [sum_line b.name labels sum e.now_millis,
            count_line b.name labels (histTotal buckets) e.now_millis]).drop e.writer.length =
        pureBucketLines b.name labels e.now_millis (F64.finite 0) buckets
        ++ (if sawInfinity buckets then []
            else [bucketLine b.name (specLabelText (labels ++ [("le".data, "+Inf".data)]))
                    (histTotal buckets) e.now_millis])
        ++ [sum_line b.name labels sum e.now_millis,
            count_line b.name labels (histTotal buckets) e.now_millis] := by
      rw [List.append_assoc, List.append_assoc, List.drop_left, ← List.append_assoc]
    rw [hw] at hl
    rcases List.mem_append.mp hl with hm | hm
    · rcases List.mem_append.mp hm with hm2 | hm2
      · obtain ⟨leVal, t, hlv⟩ :=
          pureBucketLines_mem b.name labels e.now_millis buckets (F64.finite 0) l hm2
        rw [hlv]; exact bucketLine_ends_ts _ _ _ _
      · cases hsb : sawInfinity buckets with
        | true => rw [hsb] at hm2; simp at hm2
        | false =>
          rw [hsb] at hm2
          simp only [Bool.false_eq_true, if_false, List.mem_singleton] at hm2
          rw [hm2]; exact bucketLine_ends_ts _ _ _ _
    · rcases List.mem_cons.mp hm with hm2 | hm2
      · rw [hm2]; exact sum_line_ends_ts _ _ _ _
      · simp only [List.mem_singleton] at hm2
        rw [hm2]; exact count_line_ends_ts _ _ _ _

/-- Claim C10: `LabeledMetricsBuilder.value` with an empty label slice emits
`<name>{} <formatted-value> <timestamp>` with empty braces present — the
labeled counter/gauge path does not omit braces, unlike the histogram path. -/
theorem labeled_value_empty_braces (b : LabeledMetricsBuilder) (e : MetricsEncoder)
    (value : F64) :
    b.value e [] value =
      some ⟨e.writer ++ [b.name ++ "\x7b\x7d ".data ++ FormattedValue value ++ [' ']
        ++ intToStr e.now_millis], e.now_millis⟩ := by
  simp [LabeledMetricsBuilder.value, encode_value_with_labels, encode_labels,
    encodeLabelsAux, writeLine]

/-- Claim C4: the value formatter is total on the embedded `f64` domain and
renders exactly `NaN`, `+Inf`, `-Inf` on the special values and the default
decimal rendering on every finite value. -/
theorem formatted_value_total :
    FormattedValue F64.nan = "NaN".data ∧
    FormattedValue F64.posInf = "+Inf".data ∧
    FormattedValue F64.negInf = "-Inf".data ∧
    ∀ q : Frac, FormattedValue (F64.finite q) = ratToStr q :=
  ⟨rfl, rfl, rfl, fun _ => rfl⟩

/-- Claim C5: `validate_prometheus_name` returns normally exactly on the
strings matching the anchored pattern `[A-Za-z_][A-Za-z0-9_]*` (in the
model, returning normally is `true` and panicking is `false`), so it panics
on the empty string, a leading digit, a non-ASCII first character, an
embedded space, and every other non-matching string. -/
theorem validate_name_matches_pattern (s : Str) :
    validate_prometheus_name s = matchesPromNamePattern s := by
  cases s with
  | nil => rfl
  | cons c rest => rfl

theorem unescapeValue_cons_ne (c : Char) (h : ¬ c = '\\') (x : Str) :
    unescapeValue (c :: x) = c :: unescapeValue x := by
  cases x with
  | nil => simp [unescapeValue, h]
  | cons d x2 => simp [unescapeValue, h]

/-- Claim C6: label values are escaped character by character (backslash to
`\\`, newline to `\n`, quote to `\"`, everything else unchanged), and the
standard exposition-format un-escaping recovers the original string. -/
theorem label_escape_round_trip :
    (∀ v : Str, unescapeValue (escapeValue v) = v) ∧
    escapeChar '\\' = ['\\', '\\'] ∧ escapeChar '\n' = ['\\', 'n'] ∧
    escapeChar '"' = ['\\', '"'] ∧
    (∀ c : Char, c = '\\' ∨ c = '\n' ∨ c = '"' ∨ escapeChar c = [c]) := by
  refine ⟨?_, by decide, by decide, by decide, ?_⟩
  · intro v
    induction v with
    | nil => rfl
    | cons c rest ih =>
      have hcons : escapeValue (c :: rest) = escapeChar c ++ escapeValue rest := rfl
      rw [hcons]
      by_cases h1 : c = '\\'
      · subst h1
        rw [show escapeChar '\\' = ['\\', '\\'] from by decide]
        simp [unescapeValue, ih]
      · by_cases h2 : c = '\n'
        · subst h2
          rw [show escapeChar '\n' = ['\\', 'n'] from by decide]
          simp [unescapeValue, ih]
        · by_cases h3 : c = '"'
          · subst h3
            rw [show escapeChar '"' = ['\\', '"'] from by decide]
            simp [unescapeValue, ih]
          · rw [show escapeChar c = [c] from by simp [escapeChar, h1, h2, h3]]
            show unescapeValue (c :: escapeValue rest) = c :: rest
            rw [unescapeValue_cons_ne c h1, ih]
  · intro c
    by_cases h1 : c = '\\'
    · exact Or.inl h1
    · by_cases h2 : c = '\n'
      · exact Or.inr (Or.inl h2)
      · by_cases h3 : c = '"'
        · exact Or.inr (Or.inr (Or.inl h3))
        · exact Or.inr (Or.inr (Or.inr (by simp [escapeChar, h1, h2, h3])))

/-- Claim C7: on valid keys the label serializer produces exactly the
brace-interior text `k1="v1",k2="v2",...` in the order supplied by the
caller (no sorting, no deduplication — `specLabelText` is literally the
in-order rendering), and the empty sequence produces the empty string; as a
pure function of the label list it is deterministic. -/
theorem encode_labels_ordered_text :
    (∀ labels : List (Str × Str),
      (∀ kv ∈ labels, validate_prometheus_name kv.1 = true) →
      encode_labels labels = some (specLabelText labels)) ∧
    encode_labels [] = some [] :=
  ⟨encode_labels_eq, rfl⟩

/-- Claim C8: `encode_counter` for `requests_total`, value `42`, help text
`Total requests`, on an encoder with timestamp `1000`, appends exactly the
HELP line (help text verbatim), the TYPE line, and the data line
`requests_total 42 1000`, in that order. -/
theorem encode_counter_scenario (w : List Str) :
    encode_counter ⟨w, 1000⟩ "requests_total".data (F64.finite 42) "Total requests".data =
      some ⟨w ++ ["# HELP requests_total Total requests".data,
                  "# TYPE requests_total counter".data,
                  "requests_total 42 1000".data], 1000⟩ := by
  have hv : validate_prometheus_name "requests_total".data = true := by decide
  have h1 : "# HELP ".data ++ "requests_total".data ++ [' '] ++ "Total requests".data =
      "# HELP requests_total Total requests".data := by decide
  have h2 : "# TYPE ".data ++ "requests_total".data ++ [' '] ++ "counter".data =
      "# TYPE requests_total counter".data := by decide
  have h3 : "requests_total".data ++ [' '] ++ FormattedValue (F64.finite 42) ++ [' ']
      ++ intToStr (1000 : Int) = "requests_total 42 1000".data := by decide
  simp only [encode_counter, encode_single_value, hv, if_true, encode_header, writeLine]
  rw [h1, h2, h3]
  simp [List.append_assoc]

/-! ### Concrete witnesses -/

theorem hist_count_eq_bucket_total_witness :
    ∃ pre leVal,
      (⟨["h_bucket\x7ble=\"+Inf\"\x7d 0 5".data, "h_sum 0 5".data, "h_count 0 5".data],
        5⟩ : MetricsEncoder).writer = pre
        ++ [bucketLine "h".data (specLabelText ([] ++ [("le".data, leVal)]))
              (histTotal []) (5 : Int),
            sum_line "h".data [] (F64.finite 0) (5 : Int),
            count_line "h".data [] (histTotal []) (5 : Int)] :=
  (hist_count_eq_bucket_total ⟨"h".data⟩ ⟨[], 5⟩ [] [] (F64.finite 0)
    ⟨["h_bucket\x7ble=\"+Inf\"\x7d 0 5".data, "h_sum 0 5".data, "h_count 0 5".data], 5⟩
    (by decide)).1

theorem hist_inf_bucket_synthesis_witness :
    (⟨["m_bucket\x7ble=\"+Inf\"\x7d 1 3".data, "m_sum 1 3".data, "m_count 1 3".data], 3⟩ :
      MetricsEncoder).writer =
      ([] : List Str)
      ++ pureBucketLines "m".data [] (3 : Int) (F64.finite 0) [(F64.posInf, F64.finite 1)]
      ++ [sum_line "m".data [] (F64.finite 1) (3 : Int),
          count_line "m".data [] (histTotal [(F64.posInf, F64.finite 1)]) (3 : Int)] :=
  (hist_inf_bucket_synthesis ⟨"m".data⟩ ⟨[], 3⟩ [] [(F64.posInf, F64.finite 1)]
    (F64.finite 1)
    ⟨["m_bucket\x7ble=\"+Inf\"\x7d 1 3".data, "m_sum 1 3".data, "m_count 1 3".data], 3⟩
    (by decide)).2 (by decide)

theorem hist_empty_labels_braces_witness :
    ∃ blines,
      (⟨["q_bucket\x7ble=\"+Inf\"\x7d 0 9".data, "q_sum 0 9".data, "q_count 0 9".data], 9⟩ :
        MetricsEncoder).writer = ([] : List Str) ++ blines
        ++ ["q".data ++ "_sum ".data ++ FormattedValue (F64.finite 0) ++ [' ']
              ++ intToStr (9 : Int),
            "q".data ++ "_count ".data ++ FormattedValue (histTotal []) ++ [' ']
              ++ intToStr (9 : Int)] ∧
      ∀ l ∈ blines, ∃ leVal total,
        l = bucketLine "q".data (encodeLabelPair ("le".data, leVal)) total (9 : Int) :=
  hist_empty_labels_braces ⟨"q".data⟩ ⟨[], 9⟩ [] (F64.finite 0)
    ⟨["q_bucket\x7ble=\"+Inf\"\x7d 0 9".data, "q_sum 0 9".data, "q_count 0 9".data], 9⟩
    (by decide)

theorem encode_labels_ordered_text_witness :
    encode_labels [("code".data, "500".data), ("handler".data, "root".data)] =
      some (specLabelText [("code".data, "500".data), ("handler".data, "root".data)]) :=
  encode_labels_ordered_text.1 _ (by decide)

theorem timestamp_frozen_witness :
    (⟨["a\x7b\x7d 0 1000".data], 1000⟩ : MetricsEncoder).now_millis =
      (⟨[], 1000⟩ : MetricsEncoder).now_millis ∧
    ∃ pre, (⟨["a\x7b\x7d 0 1000".data], 1000⟩ : MetricsEncoder).writer =
      (⟨[], 1000⟩ : MetricsEncoder).writer ++ [pre ++ ' ' :: intToStr (1000 : Int)] :=
  (timestamp_frozen ⟨[], 1000⟩).1 "a".data [] (F64.finite 0)
    ⟨["a\x7b\x7d 0 1000".data], 1000⟩ (by decide)
